import Mathlib

/-!
Shallow embedding of the move-selection engine of `game_agent.py`
(the module-level evaluation heuristics and the class `CustomPlayer`).

Modelling conventions:
* Python floats holding game scores are modelled by
  `Score := WithBot (WithTop ℚ)`: `⊥` is `float("-inf")`, `topScore` is
  `float("inf")` and `finScore q` is a finite float.
* The injected wall clock `self.time_left` is modelled by a function
  `clock : ℕ → ℚ` giving the value returned by the k-th call of
  `time_left()`.  Every embedded function threads the number of calls
  made so far; a raised `Timeout` exception is the `Except.error ()`
  outcome, and a caught `Timeout` is an `Except.error` that is turned
  back into a normal value by the handler in `get_move`.
* `random.randint(0, n - 1)` is modelled by an oracle argument
  `randIdx : ℕ` that is reduced modulo the length of the move list.
* The board object `isolation.Board` is not part of this repository;
  the engine only calls `get_legal_moves` and `forecast_move` on it, so
  it is embedded as the interface `Board σ` over an abstract immutable
  state type `σ`, and `self.score(game, self)` — whose perspective
  player is always the agent itself — as a function `f : σ → Score`.
* The `while True` loop of `get_move` need not terminate; its embedding
  `idLoop` takes a `fuel` argument and returns `none` when the loop is
  still running after `fuel` rounds.
-/

namespace GameAgent

/-- A move: the Python pair of ints `(row, col)`; `(-1, -1)` is the
sentinel "no move". -/
abbrev Move : Type := ℤ × ℤ

/-- Python float scores: `⊥` models `float("-inf")`, `topScore` models
`float("inf")`, and finite floats are rationals. -/
abbrev Score : Type := WithBot (WithTop ℚ)

/-- A finite score. -/
def finScore (q : ℚ) : Score := ((q : WithTop ℚ) : Score)

/-- The score `float("inf")`. -/
def topScore : Score := ((⊤ : WithTop ℚ) : Score)

/-- Python comparison `p < q` on pairs of ints (lexicographic tuple
comparison). -/
def moveLt (p q : Move) : Prop := p.1 < q.1 ∨ (p.1 = q.1 ∧ p.2 < q.2)

instance (p q : Move) : Decidable (moveLt p q) :=
  inferInstanceAs (Decidable (_ ∨ _))

/-- Python comparison `p < q` on `(score, move)` tuples (lexicographic),
as induced by the `max`/`min` calls in `max_value`/`min_value`. -/
def tupLt (p q : Score × Move) : Prop :=
  p.1 < q.1 ∨ (p.1 = q.1 ∧ moveLt p.2 q.2)

instance (p q : Score × Move) : Decidable (tupLt p q) :=
  inferInstanceAs (Decidable (_ ∨ _))

/-- Python `max(p, q)` on `(score, move)` tuples: the second argument
replaces the first exactly when it is strictly greater. -/
def pyMax (p q : Score × Move) : Score × Move := if tupLt p q then q else p

/-- Python `min(p, q)` on `(score, move)` tuples: the second argument
replaces the first exactly when it is strictly smaller. -/
def pyMin (p q : Score × Move) : Score × Move := if tupLt q p then q else p

/-- The slice of the external `isolation.Board` interface used by the
engine: legal-move enumeration and move forecasting over an abstract
state type. -/
structure Board (σ : Type) where
  legalMoves : σ → List Move
  forecast : σ → Move → σ

instance {ε α : Type} [DecidableEq ε] [DecidableEq α] : DecidableEq (Except ε α) :=
  fun a b =>
    match a, b with
    | .error x, .error y =>
      if h : x = y then .isTrue (by rw [h]) else .isFalse (by simp [h])
    | .ok x, .ok y =>
      if h : x = y then .isTrue (by rw [h]) else .isFalse (by simp [h])
    | .error _, .ok _ => .isFalse (by simp)
    | .ok _, .error _ => .isFalse (by simp)

variable {σ : Type}

/-- The `for` loop of the unpruned branch of `CustomPlayer.max_value`
(game_agent.py lines 205-210), parameterized by the recursive call
`child` made on each forecasted successor (`fc m` is
`game.forecast_move(move)`).  Each iteration first queries the clock
(raising `Timeout` when below the threshold), then folds the child's
score and the move into the running best with Python's tuple `max`. -/
def maxGoPlain (clock : ℕ → ℚ) (th : ℚ)
    (child : σ → ℕ → Except Unit ((Score × Move) × ℕ)) (fc : Move → σ) :
    List Move → Score × Move → ℕ → Except Unit ((Score × Move) × ℕ)
  | [], acc, n => .ok (acc, n)
  | m :: ms, acc, n =>
    if clock n < th then .error () else
      match child (fc m) (n + 1) with
      | .error e => .error e
      | .ok (r, n') => maxGoPlain clock th child fc ms (pyMax acc (r.1, m)) n'

/-- The `for` loop of the unpruned branch of `CustomPlayer.min_value`
(lines 237-242): mirror image of `maxGoPlain` with Python's tuple
`min`. -/
def minGoPlain (clock : ℕ → ℚ) (th : ℚ)
    (child : σ → ℕ → Except Unit ((Score × Move) × ℕ)) (fc : Move → σ) :
    List Move → Score × Move → ℕ → Except Unit ((Score × Move) × ℕ)
  | [], acc, n => .ok (acc, n)
  | m :: ms, acc, n =>
    if clock n < th then .error () else
      match child (fc m) (n + 1) with
      | .error e => .error e
      | .ok (r, n') => minGoPlain clock th child fc ms (pyMin acc (r.1, m)) n'

/-- The `for` loop of the pruned branch of `CustomPlayer.max_value`
(lines 212-219): after folding in a child, return immediately when the
running best `v` satisfies `v >= beta`, otherwise tighten `alpha` to
`max(alpha, v)` before the next sibling. -/
def maxGoPrune (clock : ℕ → ℚ) (th : ℚ)
    (child : Score → Score → σ → ℕ → Except Unit ((Score × Move) × ℕ)) (fc : Move → σ) :
    List Move → Score × Move → Score → Score → ℕ → Except Unit ((Score × Move) × ℕ)
  | [], acc, _, _, n => .ok (acc, n)
  | m :: ms, acc, alpha, beta, n =>
    if clock n < th then .error () else
      match child alpha beta (fc m) (n + 1) with
      | .error e => .error e
      | .ok (r, n') =>
        let acc' := pyMax acc (r.1, m)
        if beta ≤ acc'.1 then .ok (acc', n')
        else maxGoPrune clock th child fc ms acc' (max alpha acc'.1) beta n'

/-- The `for` loop of the pruned branch of `CustomPlayer.min_value`
(lines 244-251): return when the running best `v` satisfies
`v <= alpha`, otherwise tighten `beta` to `min(beta, v)`. -/
def minGoPrune (clock : ℕ → ℚ) (th : ℚ)
    (child : Score → Score → σ → ℕ → Except Unit ((Score × Move) × ℕ)) (fc : Move → σ) :
    List Move → Score × Move → Score → Score → ℕ → Except Unit ((Score × Move) × ℕ)
  | [], acc, _, _, n => .ok (acc, n)
  | m :: ms, acc, alpha, beta, n =>
    if clock n < th then .error () else
      match child alpha beta (fc m) (n + 1) with
      | .error e => .error e
      | .ok (r, n') =>
        let acc' := pyMin acc (r.1, m)
        if acc'.1 ≤ alpha then .ok (acc', n')
        else minGoPrune clock th child fc ms acc' alpha (min beta acc'.1) n'

mutual

/-- `CustomPlayer.max_value` (game_agent.py lines 196-219).  Check the
clock; at `depth == 0` or with no legal moves return
`(self.score(game, self), (-1, -1))`; otherwise run the unpruned or the
pruned sibling loop, whose recursive calls are `self.min_value` at
`depth - 1` (with default bounds when unpruned, the current bounds when
pruned).  The Python `depth == 0 or not game.get_legal_moves()` guard
is split into a match on `depth` and a list-emptiness test. -/
def max_value (B : Board σ) (f : σ → Score) (clock : ℕ → ℚ) (th : ℚ)
    (g : σ) (depth : ℕ) (toPrune : Bool) (alpha beta : Score) (n : ℕ) :
    Except Unit ((Score × Move) × ℕ) :=
  if clock n < th then .error () else
  match depth with
  | 0 => .ok ((f g, (-1, -1)), n + 1)
  | d + 1 =>
    if B.legalMoves g = [] then .ok ((f g, (-1, -1)), n + 1)
    else if toPrune = false then
      maxGoPlain clock th (fun g' k => min_value B f clock th g' d false ⊥ topScore k)
        (B.forecast g) (B.legalMoves g) (⊥, (-1, -1)) (n + 1)
    else
      maxGoPrune clock th (fun a b g' k => min_value B f clock th g' d true a b k)
        (B.forecast g) (B.legalMoves g) (⊥, (-1, -1)) alpha beta (n + 1)

/-- `CustomPlayer.min_value` (lines 228-251), mirror image of
`max_value`: running best seeded with `float("inf")`, children are
`self.max_value` at `depth - 1`. -/
def min_value (B : Board σ) (f : σ → Score) (clock : ℕ → ℚ) (th : ℚ)
    (g : σ) (depth : ℕ) (toPrune : Bool) (alpha beta : Score) (n : ℕ) :
    Except Unit ((Score × Move) × ℕ) :=
  if clock n < th then .error () else
  match depth with
  | 0 => .ok ((f g, (-1, -1)), n + 1)
  | d + 1 =>
    if B.legalMoves g = [] then .ok ((f g, (-1, -1)), n + 1)
    else if toPrune = false then
      minGoPlain clock th (fun g' k => max_value B f clock th g' d false ⊥ topScore k)
        (B.forecast g) (B.legalMoves g) (topScore, (-1, -1)) (n + 1)
    else
      minGoPrune clock th (fun a b g' k => max_value B f clock th g' d true a b k)
        (B.forecast g) (B.legalMoves g) (topScore, (-1, -1)) alpha beta (n + 1)

end

/-- `CustomPlayer.minimax` (lines 253-290): clock check, then dispatch
to `max_value` or `min_value` with pruning off and default bounds. -/
def minimax (B : Board σ) (f : σ → Score) (clock : ℕ → ℚ) (th : ℚ)
    (g : σ) (depth : ℕ) (maximizing_player : Bool) (n : ℕ) :
    Except Unit ((Score × Move) × ℕ) :=
  if clock n < th then .error () else
  if maximizing_player then max_value B f clock th g depth false ⊥ topScore (n + 1)
  else min_value B f clock th g depth false ⊥ topScore (n + 1)

/-- `CustomPlayer.alphabeta` (lines 292-336): clock check, then
dispatch to `max_value` or `min_value` with pruning on. -/
def alphabeta (B : Board σ) (f : σ → Score) (clock : ℕ → ℚ) (th : ℚ)
    (g : σ) (depth : ℕ) (alpha beta : Score) (maximizing_player : Bool) (n : ℕ) :
    Except Unit ((Score × Move) × ℕ) :=
  if clock n < th then .error () else
  if maximizing_player then max_value B f clock th g depth true alpha beta (n + 1)
  else min_value B f clock th g depth true alpha beta (n + 1)

/-- The `search_method` selection of `get_move` (lines 163-166) applied
at a given depth: `self.minimax` when `self.method == "minimax"`, else
`self.alphabeta`, both with their default arguments. -/
def search_method (B : Board σ) (f : σ → Score) (clock : ℕ → ℚ) (th : ℚ)
    (method : String) (g : σ) (depth : ℕ) (n : ℕ) :
    Except Unit ((Score × Move) × ℕ) :=
  if method = "minimax" then minimax B f clock th g depth true n
  else alphabeta B f clock th g depth ⊥ topScore true n

/-- The `while True` loop of `get_move` (lines 168-187) together with
the `try/except Timeout` handler around it: check the clock (a raised
`Timeout` here or inside the search is caught and turns into returning
the current `best_move`), run the search at the current depth, replace
the accumulator on strict score improvement, return when not iterative,
else increment the depth and repeat.  `fuel` bounds the number of
rounds; `none` means the loop is still running. -/
def idLoop (B : Board σ) (f : σ → Score) (clock : ℕ → ℚ) (th : ℚ)
    (method : String) (iterative : Bool) (g : σ) :
    ℕ → ℕ → Score × Move → ℕ → Option (Except Unit Move)
  | 0, _, _, _ => none
  | fuel + 1, depth, best, n =>
    if clock n < th then some (.ok best.2)
    else
      match search_method B f clock th method g depth (n + 1) with
      | .error _ => some (.ok best.2)
      | .ok ((s, m), n') =>
        let best' := if best.1 < s then (s, m) else best
        if iterative = false then some (.ok best'.2)
        else idLoop B f clock th method iterative g fuel (depth + 1) best' n'

set_option linter.unusedVariables false in
/-- `CustomPlayer.get_move` (lines 103-187).  The entry clock check
(line 141) sits before the `try` block, so a `Timeout` raised there
propagates to the caller (`some (.error ())`); an empty move list
returns the sentinel; `move_count == 1` returns
`(floor(height / 2), floor(width / 2))`; otherwise the accumulator is
seeded with a `random.randint`-chosen legal move and score
`float("-inf")` and the iterative-deepening loop starts at depth 1.
`search_depth` is `self.search_depth`, which the live code never reads
(its only uses, lines 179-180, are commented out). -/
def get_move (B : Board σ) (f : σ → Score) (clock : ℕ → ℚ) (th : ℚ)
    (search_depth : ℤ) (iterative : Bool) (method : String) (g : σ)
    (legal_moves : List Move) (move_count : ℕ) (height width : ℕ)
    (randIdx : ℕ) (fuel : ℕ) : Option (Except Unit Move) :=
  if clock 0 < th then some (.error ())
  else if legal_moves = [] then some (.ok (-1, -1))
  else if move_count = 1 then some (.ok ((height : ℤ) / 2, (width : ℤ) / 2))
  else
    let best_move := legal_moves.getD (randIdx % legal_moves.length) (-1, -1)
    idLoop B f clock th method iterative g fuel 1 (⊥, best_move) 1

/-- `lecture_heuristic_improved` (game_agent.py lines 21-22):
`(own_moves - 2*opp_moves)/remaining_moves`.  All three arguments are
Python ints promoted to a float by the true division. -/
def lecture_heuristic_improved (own_moves opp_moves remaining_moves : ℚ) : ℚ :=
  (own_moves - 2 * opp_moves) / remaining_moves

/-- `survival_heuristic` (lines 26-27): `3*(own_moves-3)/remaining_moves`. -/
def survival_heuristic (own_moves remaining_moves : ℚ) : ℚ :=
  3 * (own_moves - 3) / remaining_moves

/-- `positional_heuristic` (lines 30-32): inverse Manhattan distance to
the center scaled by remaining moves, `float("inf")` when already at
the center (the Python guard `distance is not 0` behaves as
`distance != 0` on CPython small ints). -/
def positional_heuristic (location center : ℤ × ℤ) (remaining_moves : ℚ) : Score :=
  let distance : ℤ := |location.1 - center.1| + |location.2 - center.2|
  if distance ≠ 0 then finScore (remaining_moves / ((distance : ℚ) * 5)) else topScore

/-- What `custom_score(game, player)` reads from its two arguments:
`game.is_loser(player)`, `game.is_winner(player)`, the lengths of the
two legal-move lists, `game.move_count`, the board dimensions and
`game.get_player_location(player)` — which is `None` (`none`) when the
player has not been placed on the board yet. -/
structure EvalState where
  isLoser : Bool
  isWinner : Bool
  ownMoves : ℕ
  oppMoves : ℕ
  moveCount : ℕ
  width : ℕ
  height : ℕ
  location : Option (ℤ × ℤ)
deriving DecidableEq

/-- `custom_score` (lines 43-61).  Returns `none` when the Python call
raises instead of returning a score: a `ZeroDivisionError` in
`lecture_heuristic_improved` (line 57) when
`remaining_moves = width*height - move_count` is zero, or a `TypeError`
in `positional_heuristic` (line 59) when the player's location is
`None`.  Otherwise the three heuristic terms are summed; the positional
term is `float("inf")` exactly when the player sits on the center cell
`(width//2, height//2)`. -/
def custom_score (g : EvalState) : Option Score :=
  if g.isLoser then some ⊥
  else if g.isWinner then some topScore
  else
    let own_moves : ℚ := g.ownMoves
    let opp_moves : ℚ := g.oppMoves
    let remaining_moves : ℚ := ((g.width * g.height : ℕ) : ℚ) - (g.moveCount : ℚ)
    if remaining_moves = 0 then none
    else
      match g.location with
      | none => none
      | some location =>
        let center : ℤ × ℤ := ((g.width : ℤ) / 2, (g.height : ℤ) / 2)
        some (finScore (lecture_heuristic_improved own_moves opp_moves remaining_moves)
          + finScore (survival_heuristic own_moves remaining_moves)
          + positional_heuristic location center remaining_moves)

/-! Time-abstracted copies of the four search loops and of
`max_value`/`min_value`: identical to the clocked embeddings above with
the clock queries erased.  They are the computational content of a run
in which no `Timeout` is ever raised, and are related to the clocked
functions by the bridge lemmas below. -/

/-- `maxGoPlain` with the clock erased; `childVal m` is the score
component of the recursive `min_value` call on the successor under
move `m`. -/
def maxvGo (childVal : Move → Score) : List Move → Score × Move → Score × Move
  | [], acc => acc
  | m :: ms, acc => maxvGo childVal ms (pyMax acc (childVal m, m))

/-- `minGoPlain` with the clock erased. -/
def minvGo (childVal : Move → Score) : List Move → Score × Move → Score × Move
  | [], acc => acc
  | m :: ms, acc => minvGo childVal ms (pyMin acc (childVal m, m))

/-- `maxGoPrune` with the clock erased; `childVal a b m` is the score
component of the recursive pruned `min_value` call with bounds
`(a, b)`. -/
def maxabGo (childVal : Score → Score → Move → Score) :
    List Move → Score × Move → Score → Score → Score × Move
  | [], acc, _, _ => acc
  | m :: ms, acc, alpha, beta =>
    let acc' := pyMax acc (childVal alpha beta m, m)
    if beta ≤ acc'.1 then acc'
    else maxabGo childVal ms acc' (max alpha acc'.1) beta

/-- `minGoPrune` with the clock erased. -/
def minabGo (childVal : Score → Score → Move → Score) :
    List Move → Score × Move → Score → Score → Score × Move
  | [], acc, _, _ => acc
  | m :: ms, acc, alpha, beta =>
    let acc' := pyMin acc (childVal alpha beta m, m)
    if acc'.1 ≤ alpha then acc'
    else minabGo childVal ms acc' alpha (min beta acc'.1)

mutual

/-- `max_value` with `toPrune = False` and the clock erased: plain
minimax. -/
def maxv (B : Board σ) (f : σ → Score) : ℕ → σ → Score × Move
  | 0, g => (f g, (-1, -1))
  | d + 1, g =>
    if B.legalMoves g = [] then (f g, (-1, -1))
    else
      maxvGo (fun m => (minv B f d (B.forecast g m)).1)
        (B.legalMoves g) (⊥, (-1, -1))

/-- `min_value` with `toPrune = False` and the clock erased. -/
def minv (B : Board σ) (f : σ → Score) : ℕ → σ → Score × Move
  | 0, g => (f g, (-1, -1))
  | d + 1, g =>
    if B.legalMoves g = [] then (f g, (-1, -1))
    else
      minvGo (fun m => (maxv B f d (B.forecast g m)).1)
        (B.legalMoves g) (topScore, (-1, -1))

end

mutual

/-- `max_value` with `toPrune = True` and the clock erased: alpha-beta
pruned minimax. -/
def maxab (B : Board σ) (f : σ → Score) : ℕ → σ → Score → Score → Score × Move
  | 0, g, _, _ => (f g, (-1, -1))
  | d + 1, g, alpha, beta =>
    if B.legalMoves g = [] then (f g, (-1, -1))
    else
      maxabGo (fun a b m => (minab B f d (B.forecast g m) a b).1)
        (B.legalMoves g) (⊥, (-1, -1)) alpha beta

/-- `min_value` with `toPrune = True` and the clock erased. -/
def minab (B : Board σ) (f : σ → Score) : ℕ → σ → Score → Score → Score × Move
  | 0, g, _, _ => (f g, (-1, -1))
  | d + 1, g, alpha, beta =>
    if B.legalMoves g = [] then (f g, (-1, -1))
    else
      minabGo (fun a b m => (maxab B f d (B.forecast g m) a b).1)
        (B.legalMoves g) (topScore, (-1, -1)) alpha beta

end

/-! Concrete instances used to evaluate the embedding at specific
inputs.  States are histories of moves played from the root. -/

/-- A small game: the root offers moves `(0,0)` and `(1,1)`, each of
which offers the single reply `(0,1)`; afterwards no move is legal. -/
def crossBoard : Board (List Move) where
  legalMoves h :=
    match h with
    | [] => [(0, 0), (1, 1)]
    | [_] => [(0, 1)]
    | _ => []
  forecast h m := h ++ [m]

/-- An evaluation on `crossBoard` whose depth-1 optimum (move `(0,0)`,
score 5) differs from its depth-2 optimum (move `(1,1)`, score 3). -/
def crossEval : List Move → Score
  | [(0, 0)] => finScore 5
  | [(1, 1)] => finScore 0
  | [(0, 0), (0, 1)] => finScore 1
  | [(1, 1), (0, 1)] => finScore 3
  | _ => finScore 0

/-- An empty 3×3 board as the engine sees it: all nine cells are legal
moves for the first placement. -/
def board33 : Board (List Move) where
  legalMoves h :=
    match h with
    | [] => [(0, 0), (0, 1), (0, 2), (1, 0), (1, 1), (1, 2), (2, 0), (2, 1), (2, 2)]
    | _ => []
  forecast h m := h ++ [m]

/-- The constant-zero evaluation function. -/
def constZeroEval : List Move → Score := fun _ => finScore 0

/-- The constant `float("-inf")` evaluation function (every position
already lost). -/
def lostEval : List Move → Score := fun _ => (⊥ : Score)

/-- A clock that always reports 100 ms: no timeout ever fires at
threshold 10. -/
def ampleClock : ℕ → ℚ := fun _ => 100

/-- A clock that always reports 0 ms: already expired at entry. -/
def zeroClock : ℕ → ℚ := fun _ => 0

/-- A clock that reports 100 ms for the first `k` queries and 0
afterwards: the budget expires at the k-th query. -/
def cutClock (k : ℕ) : ℕ → ℚ := fun n => if n < k then 100 else 0

/-- A non-terminal evaluation state in which the perspective player has
not been placed on the board yet (`get_player_location` is `None`). -/
def noLocState : EvalState :=
  { isLoser := false, isWinner := false, ownMoves := 2, oppMoves := 2,
    moveCount := 2, width := 3, height := 3, location := none }

/-- A non-terminal evaluation state whose player sits exactly on the
center cell of a 3×3 board. -/
def centerState : EvalState :=
  { isLoser := false, isWinner := false, ownMoves := 2, oppMoves := 2,
    moveCount := 2, width := 3, height := 3, location := some (1, 1) }

/-- A state in which the perspective player has already lost. -/
def lostState : EvalState :=
  { isLoser := true, isWinner := false, ownMoves := 0, oppMoves := 0,
    moveCount := 2, width := 3, height := 3, location := none }

/-- Clamping of a score into the interval `[a, b]`, the standard device
for stating what a fail-soft alpha-beta result determines about the
exact minimax value. -/
def clampS (a b x : Score) : Score := max a (min b x)

/-! ### Helper lemmas -/

/-- Once past the entry check, every outcome of the iterative-deepening
loop is a returned move: the `try/except` handler converts every
`Timeout` raised inside the loop into returning the accumulator. -/
theorem idLoop_no_error (B : Board σ) (f : σ → Score) (clock : ℕ → ℚ) (th : ℚ)
    (method : String) (iterative : Bool) (g : σ) :
    ∀ (fuel depth : ℕ) (best : Score × Move) (n : ℕ) (e : Unit),
      idLoop B f clock th method iterative g fuel depth best n ≠ some (.error e) := by
  intro fuel
  induction fuel with
  | zero => intro depth best n e; simp [idLoop]
  | succ fu ih =>
    intro depth best n e
    simp only [idLoop]
    split
    · simp
    · cases h : search_method B f clock th method g depth (n + 1) with
      | error e' => simp
      | ok r =>
        obtain ⟨⟨s, m⟩, n'⟩ := r
        dsimp only
        by_cases hit : iterative = false
        · simp [hit]
        · rw [if_neg hit]
          exact ih _ _ _ _

/-! ### Lemmas for the alpha-beta / minimax score equivalence -/

/-- The score component of a Python tuple `max` is the `max` of the
score components: the move only breaks exact-score ties. -/
theorem fst_pyMax (p q : Score × Move) : (pyMax p q).1 = max p.1 q.1 := by
  unfold pyMax
  by_cases h : tupLt p q
  · rw [if_pos h]
    rcases h with h | ⟨h, _⟩
    · exact (max_eq_right h.le).symm
    · exact (max_eq_right h.le).symm
  · rw [if_neg h]
    have hq : ¬ p.1 < q.1 := fun hc => h (Or.inl hc)
    exact (max_eq_left (not_lt.mp hq)).symm

/-- The score component of a Python tuple `min` is the `min` of the
score components. -/
theorem fst_pyMin (p q : Score × Move) : (pyMin p q).1 = min p.1 q.1 := by
  unfold pyMin
  by_cases h : tupLt q p
  · rw [if_pos h]
    rcases h with h | ⟨h, _⟩
    · exact (min_eq_right h.le).symm
    · exact (min_eq_right h.le).symm
  · rw [if_neg h]
    have : ¬ q.1 < p.1 := fun hc => h (Or.inl hc)
    exact (min_eq_left (not_lt.mp this)).symm

/-- The unpruned maximizing fold never decreases the accumulated
score. -/
theorem maxvGo_fst_mono (cv : Move → Score) :
    ∀ (ms : List Move) (acc : Score × Move), acc.1 ≤ (maxvGo cv ms acc).1 := by
  intro ms
  induction ms with
  | nil => intro acc; exact le_refl _
  | cons m ms ih =>
    intro acc
    refine le_trans ?_ (ih (pyMax acc (cv m, m)))
    rw [fst_pyMax]
    exact le_max_left _ _

/-- The unpruned minimizing fold never increases the accumulated
score. -/
theorem minvGo_fst_anti (cv : Move → Score) :
    ∀ (ms : List Move) (acc : Score × Move), (minvGo cv ms acc).1 ≤ acc.1 := by
  intro ms
  induction ms with
  | nil => intro acc; exact le_refl _
  | cons m ms ih =>
    intro acc
    refine le_trans (ih (pyMin acc (cv m, m))) ?_
    rw [fst_pyMin]
    exact min_le_left _ _

/-- The pruned maximizing fold never decreases the accumulated
score. -/
theorem maxabGo_fst_mono (cv : Score → Score → Move → Score) :
    ∀ (ms : List Move) (acc : Score × Move) (a b : Score),
      acc.1 ≤ (maxabGo cv ms acc a b).1 := by
  intro ms
  induction ms with
  | nil => intro acc a b; exact le_refl _
  | cons m ms ih =>
    intro acc a b
    simp only [maxabGo]
    have hstep : acc.1 ≤ (pyMax acc (cv a b m, m)).1 := by
      rw [fst_pyMax]; exact le_max_left _ _
    by_cases hb : b ≤ (pyMax acc (cv a b m, m)).1
    · rw [if_pos hb]; exact hstep
    · rw [if_neg hb]
      exact le_trans hstep (ih _ _ _)

/-- The pruned minimizing fold never increases the accumulated
score. -/
theorem minabGo_fst_anti (cv : Score → Score → Move → Score) :
    ∀ (ms : List Move) (acc : Score × Move) (a b : Score),
      (minabGo cv ms acc a b).1 ≤ acc.1 := by
  intro ms
  induction ms with
  | nil => intro acc a b; exact le_refl _
  | cons m ms ih =>
    intro acc a b
    simp only [minabGo]
    have hstep : (pyMin acc (cv a b m, m)).1 ≤ acc.1 := by
      rw [fst_pyMin]; exact min_le_left _ _
    by_cases ha : (pyMin acc (cv a b m, m)).1 ≤ a
    · rw [if_pos ha]; exact hstep
    · rw [if_neg ha]
      exact le_trans (ih _ _ _) hstep

theorem clampS_of_le {a b x : Score} (h : x ≤ a) : clampS a b x = a :=
  max_eq_left (le_trans (min_le_right _ _) h)

theorem clampS_of_ge {a b x : Score} (hab : a ≤ b) (h : b ≤ x) : clampS a b x = b := by
  unfold clampS
  rw [min_eq_left h]
  exact max_eq_right hab

theorem clampS_of_between {a b x : Score} (h1 : a ≤ x) (h2 : x ≤ b) : clampS a b x = x := by
  unfold clampS
  rw [min_eq_right h2]
  exact max_eq_right h1

theorem le_of_clampS_left {a b y : Score} (hab : a < b) (h : clampS a b y = a) : y ≤ a := by
  unfold clampS at h
  have hm : min b y ≤ a := by
    by_contra hc
    push_neg at hc
    rw [max_eq_right hc.le] at h
    exact absurd h (ne_of_gt hc)
  by_cases hby : y ≤ b
  · rwa [min_eq_right hby] at hm
  · push_neg at hby
    rw [min_eq_left hby.le] at hm
    exact absurd hm (not_le.mpr hab)

theorem ge_of_clampS_right {a b y : Score} (hab : a < b) (h : clampS a b y = b) : b ≤ y := by
  unfold clampS at h
  have hm : min b y = b := by
    rcases max_choice a (min b y) with hc | hc
    · rw [hc] at h
      exact absurd h (ne_of_lt hab)
    · rwa [hc] at h
  exact min_eq_left_iff.mp hm

theorem eq_of_clampS_mid {a b x y : Score} (h1 : a < x) (h2 : x < b)
    (h : clampS a b y = x) : y = x := by
  unfold clampS at h
  have hm : min b y = x := by
    rcases max_choice a (min b y) with hc | hc
    · rw [hc] at h
      exact absurd h (ne_of_lt h1)
    · rwa [hc] at h
  rcases min_choice b y with hc | hc
  · rw [hc] at hm
    exact absurd hm (ne_of_gt h2)
  · rwa [hc] at hm

theorem clampS_lift_max {a b c x : Score} (h1 : a ≤ c) (h2 : c ≤ b) (h3 : c ≤ x) :
    clampS a b x = clampS c b x := by
  unfold clampS
  have hm : c ≤ min b x := le_min h2 h3
  rw [max_eq_right (le_trans h1 hm), max_eq_right hm]

theorem clampS_lift_min {a b c x : Score} (h1 : x ≤ c) (h2 : c ≤ b) :
    clampS a b x = clampS a c x := by
  unfold clampS
  rw [min_eq_right (le_trans h1 h2), min_eq_right h1]

theorem clampS_bot_top (x : Score) : clampS ⊥ topScore x = x := by
  unfold clampS
  have : x ≤ topScore := le_top
  rw [min_eq_right this, max_eq_right bot_le]

/-- Core fail-soft lemma, maximizing side: as long as clamping to the
current window is concerned, the pruned loop computes the same score as
the unpruned loop, for any pair of accumulators below `alpha` and any
children agreeing under clamping. -/
theorem maxGo_clampS (cva : Score → Score → Move → Score) (cvp : Move → Score)
    (hch : ∀ a b m, a < b → clampS a b (cva a b m) = clampS a b (cvp m)) :
    ∀ (ms : List Move) (acc1 acc2 : Score × Move) (a b : Score),
      acc1.1 ≤ a → acc2.1 ≤ a → a < b →
      clampS a b (maxabGo cva ms acc1 a b).1 = clampS a b (maxvGo cvp ms acc2).1 := by
  intro ms
  induction ms with
  | nil =>
    intro acc1 acc2 a b h1 h2 hab
    simp only [maxabGo, maxvGo]
    rw [clampS_of_le h1, clampS_of_le h2]
  | cons m ms ih =>
    intro acc1 acc2 a b h1 h2 hab
    simp only [maxabGo, maxvGo]
    have hcc := hch a b m hab
    have hacc1 : (pyMax acc1 (cva a b m, m)).1 = max acc1.1 (cva a b m) := fst_pyMax _ _
    have hacc2 : (pyMax acc2 (cvp m, m)).1 = max acc2.1 (cvp m) := fst_pyMax _ _
    by_cases hb : b ≤ (pyMax acc1 (cva a b m, m)).1
    · rw [if_pos hb]
      have hcb : b ≤ cva a b m := by
        rw [hacc1] at hb
        rcases le_max_iff.mp hb with hc | hc
        · exact absurd (le_trans hc h1) (not_le.mpr hab)
        · exact hc
      have hc'b : b ≤ cvp m :=
        ge_of_clampS_right hab (by rw [← hcc, clampS_of_ge hab.le hcb])
      have hr : b ≤ (maxvGo cvp ms (pyMax acc2 (cvp m, m))).1 := by
        refine le_trans ?_ (maxvGo_fst_mono _ _ _)
        rw [hacc2]
        exact le_trans hc'b (le_max_right _ _)
      rw [clampS_of_ge hab.le hb, clampS_of_ge hab.le hr]
    · rw [if_neg hb]
      push_neg at hb
      by_cases hca : cva a b m ≤ a
      · have hc'a : cvp m ≤ a :=
          le_of_clampS_left hab (by rw [← hcc, clampS_of_le hca])
        have h1' : (pyMax acc1 (cva a b m, m)).1 ≤ a := by
          rw [hacc1]; exact max_le h1 hca
        have h2' : (pyMax acc2 (cvp m, m)).1 ≤ a := by
          rw [hacc2]; exact max_le h2 hc'a
        rw [max_eq_left h1']
        exact ih _ _ a b h1' h2' hab
      · push_neg at hca
        have hcb2 : cva a b m < b := by
          refine lt_of_le_of_lt ?_ hb
          rw [hacc1]
          exact le_max_right _ _
        have hc'c : cvp m = cva a b m :=
          eq_of_clampS_mid hca hcb2
            (by rw [← hcc, clampS_of_between hca.le hcb2.le])
        have e1 : (pyMax acc1 (cva a b m, m)).1 = cva a b m := by
          rw [hacc1]; exact max_eq_right (le_trans h1 hca.le)
        have e2 : (pyMax acc2 (cvp m, m)).1 = cva a b m := by
          rw [hacc2, hc'c]; exact max_eq_right (le_trans h2 hca.le)
        have hmaxa : max a (pyMax acc1 (cva a b m, m)).1 = cva a b m := by
          rw [e1]; exact max_eq_right hca.le
        rw [hmaxa]
        have key := ih (pyMax acc1 (cva a b m, m)) (pyMax acc2 (cvp m, m))
          (cva a b m) b (le_of_eq e1) (le_of_eq e2) hcb2
        have r1 : cva a b m ≤ (maxabGo cva ms (pyMax acc1 (cva a b m, m)) (cva a b m) b).1 :=
          le_trans (le_of_eq e1.symm)
            (maxabGo_fst_mono cva ms (pyMax acc1 (cva a b m, m)) (cva a b m) b)
        have r2 : cva a b m ≤ (maxvGo cvp ms (pyMax acc2 (cvp m, m))).1 :=
          le_trans (le_of_eq e2.symm) (maxvGo_fst_mono cvp ms (pyMax acc2 (cvp m, m)))
        rw [clampS_lift_max hca.le hcb2.le r1, clampS_lift_max hca.le hcb2.le r2]
        exact key

/-- Core fail-soft lemma, minimizing side: mirror image of
`maxGo_clampS`. -/
theorem minGo_clampS (cva : Score → Score → Move → Score) (cvp : Move → Score)
    (hch : ∀ a b m, a < b → clampS a b (cva a b m) = clampS a b (cvp m)) :
    ∀ (ms : List Move) (acc1 acc2 : Score × Move) (a b : Score),
      b ≤ acc1.1 → b ≤ acc2.1 → a < b →
      clampS a b (minabGo cva ms acc1 a b).1 = clampS a b (minvGo cvp ms acc2).1 := by
  intro ms
  induction ms with
  | nil =>
    intro acc1 acc2 a b h1 h2 hab
    simp only [minabGo, minvGo]
    rw [clampS_of_ge hab.le h1, clampS_of_ge hab.le h2]
  | cons m ms ih =>
    intro acc1 acc2 a b h1 h2 hab
    simp only [minabGo, minvGo]
    have hcc := hch a b m hab
    have hacc1 : (pyMin acc1 (cva a b m, m)).1 = min acc1.1 (cva a b m) := fst_pyMin _ _
    have hacc2 : (pyMin acc2 (cvp m, m)).1 = min acc2.1 (cvp m) := fst_pyMin _ _
    by_cases ha : (pyMin acc1 (cva a b m, m)).1 ≤ a
    · rw [if_pos ha]
      have hca : cva a b m ≤ a := by
        rw [hacc1] at ha
        rcases min_le_iff.mp ha with hc | hc
        · exact absurd (le_trans h1 hc) (not_le.mpr hab)
        · exact hc
      have hc'a : cvp m ≤ a :=
        le_of_clampS_left hab (by rw [← hcc, clampS_of_le hca])
      have hr : (minvGo cvp ms (pyMin acc2 (cvp m, m))).1 ≤ a := by
        refine le_trans (minvGo_fst_anti _ _ _) ?_
        rw [hacc2]
        exact le_trans (min_le_right _ _) hc'a
      rw [clampS_of_le ha, clampS_of_le hr]
    · rw [if_neg ha]
      push_neg at ha
      by_cases hcb : b ≤ cva a b m
      · have hc'b : b ≤ cvp m :=
          ge_of_clampS_right hab (by rw [← hcc, clampS_of_ge hab.le hcb])
        have h1' : b ≤ (pyMin acc1 (cva a b m, m)).1 := by
          rw [hacc1]; exact le_min h1 hcb
        have h2' : b ≤ (pyMin acc2 (cvp m, m)).1 := by
          rw [hacc2]; exact le_min h2 hc'b
        rw [min_eq_left h1']
        exact ih _ _ a b h1' h2' hab
      · push_neg at hcb
        have hca2 : a < cva a b m := by
          refine lt_of_lt_of_le ha ?_
          rw [hacc1]
          exact min_le_right _ _
        have hc'c : cvp m = cva a b m :=
          eq_of_clampS_mid hca2 hcb
            (by rw [← hcc, clampS_of_between hca2.le hcb.le])
        have e1 : (pyMin acc1 (cva a b m, m)).1 = cva a b m := by
          rw [hacc1]; exact min_eq_right (le_trans hcb.le h1)
        have e2 : (pyMin acc2 (cvp m, m)).1 = cva a b m := by
          rw [hacc2, hc'c]; exact min_eq_right (le_trans hcb.le h2)
        have hminb : min b (pyMin acc1 (cva a b m, m)).1 = cva a b m := by
          rw [e1]; exact min_eq_right hcb.le
        rw [hminb]
        have key := ih (pyMin acc1 (cva a b m, m)) (pyMin acc2 (cvp m, m))
          a (cva a b m) (le_of_eq e1.symm) (le_of_eq e2.symm) hca2
        have r1 : (minabGo cva ms (pyMin acc1 (cva a b m, m)) a (cva a b m)).1 ≤ cva a b m :=
          le_trans (minabGo_fst_anti cva ms (pyMin acc1 (cva a b m, m)) a (cva a b m))
            (le_of_eq e1)
        have r2 : (minvGo cvp ms (pyMin acc2 (cvp m, m))).1 ≤ cva a b m :=
          le_trans (minvGo_fst_anti cvp ms (pyMin acc2 (cvp m, m))) (le_of_eq e2)
        rw [clampS_lift_min r1 hcb.le, clampS_lift_min r2 hcb.le]
        exact key

/-- At every depth, pruned and unpruned search agree on the root score
up to clamping into the search window. -/
theorem ab_clampS (B : Board σ) (f : σ → Score) :
    ∀ d : ℕ,
      (∀ (g : σ) (a b : Score), a < b →
        clampS a b (maxab B f d g a b).1 = clampS a b (maxv B f d g).1) ∧
      (∀ (g : σ) (a b : Score), a < b →
        clampS a b (minab B f d g a b).1 = clampS a b (minv B f d g).1) := by
  intro d
  induction d with
  | zero => exact ⟨fun g a b _ => rfl, fun g a b _ => rfl⟩
  | succ d ih =>
    constructor
    · intro g a b hab
      simp only [maxab, maxv]
      by_cases hemp : B.legalMoves g = []
      · rw [if_pos hemp, if_pos hemp]
      · rw [if_neg hemp, if_neg hemp]
        exact maxGo_clampS _ _
          (fun a' b' m hab' => ih.2 (B.forecast g m) a' b' hab')
          (B.legalMoves g) _ _ a b bot_le bot_le hab
    · intro g a b hab
      simp only [minab, minv]
      by_cases hemp : B.legalMoves g = []
      · rw [if_pos hemp, if_pos hemp]
      · rw [if_neg hemp, if_neg hemp]
        exact minGo_clampS _ _
          (fun a' b' m hab' => ih.1 (B.forecast g m) a' b' hab')
          (B.legalMoves g) _ _ a b le_top le_top hab

/-- With the default window `(-inf, +inf)` the alpha-beta pruned search
computes exactly the plain minimax root score. -/
theorem maxab_root_eq_maxv (B : Board σ) (f : σ → Score) (d : ℕ) (g : σ) :
    (maxab B f d g ⊥ topScore).1 = (maxv B f d g).1 := by
  have hbt : (⊥ : Score) < topScore := bot_lt_top
  have h := (ab_clampS B f d).1 g ⊥ topScore hbt
  rwa [clampS_bot_top, clampS_bot_top] at h

/-- Bridge: when the clock never drops below the threshold, the clocked
unpruned maximizing loop completes and computes the time-abstracted
fold. -/
theorem maxGoPlain_bridge (clock : ℕ → ℚ) (th : ℚ) (H : ∀ k, ¬ clock k < th)
    (child : σ → ℕ → Except Unit ((Score × Move) × ℕ)) (cpure : σ → Score × Move)
    (fc : Move → σ) (hc : ∀ (g : σ) (n : ℕ), ∃ n', child g n = .ok (cpure g, n')) :
    ∀ (ms : List Move) (acc : Score × Move) (n : ℕ), ∃ n',
      maxGoPlain clock th child fc ms acc n
        = .ok (maxvGo (fun m => (cpure (fc m)).1) ms acc, n') := by
  intro ms
  induction ms with
  | nil => intro acc n; exact ⟨n, rfl⟩
  | cons m ms ih =>
    intro acc n
    simp only [maxGoPlain, maxvGo]
    rw [if_neg (H n)]
    obtain ⟨n1, hn1⟩ := hc (fc m) (n + 1)
    rw [hn1]
    exact ih _ n1

/-- Bridge for the clocked unpruned minimizing loop. -/
theorem minGoPlain_bridge (clock : ℕ → ℚ) (th : ℚ) (H : ∀ k, ¬ clock k < th)
    (child : σ → ℕ → Except Unit ((Score × Move) × ℕ)) (cpure : σ → Score × Move)
    (fc : Move → σ) (hc : ∀ (g : σ) (n : ℕ), ∃ n', child g n = .ok (cpure g, n')) :
    ∀ (ms : List Move) (acc : Score × Move) (n : ℕ), ∃ n',
      minGoPlain clock th child fc ms acc n
        = .ok (minvGo (fun m => (cpure (fc m)).1) ms acc, n') := by
  intro ms
  induction ms with
  | nil => intro acc n; exact ⟨n, rfl⟩
  | cons m ms ih =>
    intro acc n
    simp only [minGoPlain, minvGo]
    rw [if_neg (H n)]
    obtain ⟨n1, hn1⟩ := hc (fc m) (n + 1)
    rw [hn1]
    exact ih _ n1

/-- Bridge for the clocked pruned maximizing loop. -/
theorem maxGoPrune_bridge (clock : ℕ → ℚ) (th : ℚ) (H : ∀ k, ¬ clock k < th)
    (child : Score → Score → σ → ℕ → Except Unit ((Score × Move) × ℕ))
    (cpure : σ → Score → Score → Score × Move) (fc : Move → σ)
    (hc : ∀ (a b : Score) (g : σ) (n : ℕ), ∃ n', child a b g n = .ok (cpure g a b, n')) :
    ∀ (ms : List Move) (acc : Score × Move) (a b : Score) (n : ℕ), ∃ n',
      maxGoPrune clock th child fc ms acc a b n
        = .ok (maxabGo (fun a' b' m => (cpure (fc m) a' b').1) ms acc a b, n') := by
  intro ms
  induction ms with
  | nil => intro acc a b n; exact ⟨n, rfl⟩
  | cons m ms ih =>
    intro acc a b n
    simp only [maxGoPrune, maxabGo]
    rw [if_neg (H n)]
    obtain ⟨n1, hn1⟩ := hc a b (fc m) (n + 1)
    rw [hn1]
    dsimp only
    by_cases hb : b ≤ (pyMax acc ((cpure (fc m) a b).1, m)).1
    · rw [if_pos hb, if_pos hb]
      exact ⟨n1, rfl⟩
    · rw [if_neg hb, if_neg hb]
      exact ih _ _ _ n1

/-- Bridge for the clocked pruned minimizing loop. -/
theorem minGoPrune_bridge (clock : ℕ → ℚ) (th : ℚ) (H : ∀ k, ¬ clock k < th)
    (child : Score → Score → σ → ℕ → Except Unit ((Score × Move) × ℕ))
    (cpure : σ → Score → Score → Score × Move) (fc : Move → σ)
    (hc : ∀ (a b : Score) (g : σ) (n : ℕ), ∃ n', child a b g n = .ok (cpure g a b, n')) :
    ∀ (ms : List Move) (acc : Score × Move) (a b : Score) (n : ℕ), ∃ n',
      minGoPrune clock th child fc ms acc a b n
        = .ok (minabGo (fun a' b' m => (cpure (fc m) a' b').1) ms acc a b, n') := by
  intro ms
  induction ms with
  | nil => intro acc a b n; exact ⟨n, rfl⟩
  | cons m ms ih =>
    intro acc a b n
    simp only [minGoPrune, minabGo]
    rw [if_neg (H n)]
    obtain ⟨n1, hn1⟩ := hc a b (fc m) (n + 1)
    rw [hn1]
    dsimp only
    by_cases hb : (pyMin acc ((cpure (fc m) a b).1, m)).1 ≤ a
    · rw [if_pos hb, if_pos hb]
      exact ⟨n1, rfl⟩
    · rw [if_neg hb, if_neg hb]
      exact ih _ _ _ n1

/-- Bridge: with a clock that never drops below the threshold, the
clocked `max_value`/`min_value` complete with the time-abstracted
results — `maxab`/`minab` when pruning, `maxv`/`minv` otherwise. -/
theorem value_bridge (B : Board σ) (f : σ → Score) (clock : ℕ → ℚ) (th : ℚ)
    (H : ∀ k, ¬ clock k < th) :
    ∀ d : ℕ,
      (∀ (g : σ) (tp : Bool) (a b : Score) (n : ℕ), ∃ n',
        max_value B f clock th g d tp a b n
          = .ok ((if tp then maxab B f d g a b else maxv B f d g), n')) ∧
      (∀ (g : σ) (tp : Bool) (a b : Score) (n : ℕ), ∃ n',
        min_value B f clock th g d tp a b n
          = .ok ((if tp then minab B f d g a b else minv B f d g), n')) := by
  intro d
  induction d with
  | zero =>
    constructor
    · intro g tp a b n
      refine ⟨n + 1, ?_⟩
      simp only [max_value]
      rw [if_neg (H n)]
      cases tp <;> rfl
    · intro g tp a b n
      refine ⟨n + 1, ?_⟩
      simp only [min_value]
      rw [if_neg (H n)]
      cases tp <;> rfl
  | succ d ih =>
    have hminv : ∀ (g' : σ) (k : ℕ), ∃ n',
        min_value B f clock th g' d false ⊥ topScore k = .ok (minv B f d g', n') := by
      intro g' k
      obtain ⟨n', hn'⟩ := ih.2 g' false ⊥ topScore k
      exact ⟨n', by simpa using hn'⟩
    have hminab : ∀ (a' b' : Score) (g' : σ) (k : ℕ), ∃ n',
        min_value B f clock th g' d true a' b' k = .ok (minab B f d g' a' b', n') := by
      intro a' b' g' k
      obtain ⟨n', hn'⟩ := ih.2 g' true a' b' k
      exact ⟨n', by simpa using hn'⟩
    have hmaxv : ∀ (g' : σ) (k : ℕ), ∃ n',
        max_value B f clock th g' d false ⊥ topScore k = .ok (maxv B f d g', n') := by
      intro g' k
      obtain ⟨n', hn'⟩ := ih.1 g' false ⊥ topScore k
      exact ⟨n', by simpa using hn'⟩
    have hmaxab : ∀ (a' b' : Score) (g' : σ) (k : ℕ), ∃ n',
        max_value B f clock th g' d true a' b' k = .ok (maxab B f d g' a' b', n') := by
      intro a' b' g' k
      obtain ⟨n', hn'⟩ := ih.1 g' true a' b' k
      exact ⟨n', by simpa using hn'⟩
    constructor
    · intro g tp a b n
      simp only [max_value]
      rw [if_neg (H n)]
      by_cases hemp : B.legalMoves g = []
      · refine ⟨n + 1, ?_⟩
        cases tp
        · simp [hemp, maxv]
        · simp [hemp, maxab]
      · cases tp with
        | false =>
          obtain ⟨n', hn'⟩ := maxGoPlain_bridge clock th H
            (fun g' k => min_value B f clock th g' d false ⊥ topScore k)
            (minv B f d) (B.forecast g) hminv
            (B.legalMoves g) (⊥, (-1, -1)) (n + 1)
          refine ⟨n', ?_⟩
          simp only [Bool.false_eq_true, if_false, if_neg hemp, eq_self_iff_true, if_true]
          rw [hn']
          simp only [maxv, if_neg hemp]
        | true =>
          obtain ⟨n', hn'⟩ := maxGoPrune_bridge clock th H
            (fun a' b' g' k => min_value B f clock th g' d true a' b' k)
            (fun g' a' b' => minab B f d g' a' b') (B.forecast g) hminab
            (B.legalMoves g) (⊥, (-1, -1)) a b (n + 1)
          refine ⟨n', ?_⟩
          simp only [Bool.true_eq_false, if_false, if_neg hemp, eq_self_iff_true, if_true]
          rw [hn']
          simp only [maxab, if_neg hemp]
    · intro g tp a b n
      simp only [min_value]
      rw [if_neg (H n)]
      by_cases hemp : B.legalMoves g = []
      · refine ⟨n + 1, ?_⟩
        cases tp
        · simp [hemp, minv]
        · simp [hemp, minab]
      · cases tp with
        | false =>
          obtain ⟨n', hn'⟩ := minGoPlain_bridge clock th H
            (fun g' k => max_value B f clock th g' d false ⊥ topScore k)
            (maxv B f d) (B.forecast g) hmaxv
            (B.legalMoves g) (topScore, (-1, -1)) (n + 1)
          refine ⟨n', ?_⟩
          simp only [Bool.false_eq_true, if_false, if_neg hemp, eq_self_iff_true, if_true]
          rw [hn']
          simp only [minv, if_neg hemp]
        | true =>
          obtain ⟨n', hn'⟩ := minGoPrune_bridge clock th H
            (fun a' b' g' k => max_value B f clock th g' d true a' b' k)
            (fun g' a' b' => maxab B f d g' a' b') (B.forecast g) hmaxab
            (B.legalMoves g) (topScore, (-1, -1)) a b (n + 1)
          refine ⟨n', ?_⟩
          simp only [Bool.true_eq_false, if_false, if_neg hemp, eq_self_iff_true, if_true]
          rw [hn']
          simp only [minab, if_neg hemp]

/-! ### Claim C4 -/

/-- C4: for every game state, search depth and (deterministic)
evaluation function, when no timeout occurs (the clock never drops
below the threshold), the root score returned by the plain minimax
search (`max_value` with `toPrune = False`) is identical to the root
score returned by the alpha-beta pruned search (`max_value` with
`toPrune = True` and initial bounds `alpha = -inf`, `beta = +inf`). -/
theorem c4_prune_preserves_score (B : Board σ) (f : σ → Score) (clock : ℕ → ℚ)
    (th : ℚ) (g : σ) (depth : ℕ) (n1 n2 : ℕ) (H : ∀ k, ¬ clock k < th) :
    ∃ (p q : Score × Move) (k1 k2 : ℕ),
      max_value B f clock th g depth false ⊥ topScore n1 = .ok (p, k1) ∧
      max_value B f clock th g depth true ⊥ topScore n2 = .ok (q, k2) ∧
      p.1 = q.1 := by
  obtain ⟨k1, h1⟩ := (value_bridge B f clock th H depth).1 g false ⊥ topScore n1
  obtain ⟨k2, h2⟩ := (value_bridge B f clock th H depth).1 g true ⊥ topScore n2
  refine ⟨maxv B f depth g, maxab B f depth g ⊥ topScore, k1, k2, ?_, ?_, ?_⟩
  · simpa using h1
  · simpa using h2
  · exact (maxab_root_eq_maxv B f depth g).symm

/-- C4, witness. -/
theorem c4_witness :
    ∃ (p q : Score × Move) (k1 k2 : ℕ),
      max_value crossBoard crossEval ampleClock 10 [] 2 false ⊥ topScore 0 = .ok (p, k1) ∧
      max_value crossBoard crossEval ampleClock 10 [] 2 true ⊥ topScore 0 = .ok (q, k2) ∧
      p.1 = q.1 :=
  c4_prune_preserves_score crossBoard crossEval ampleClock 10 [] 2 0 0
    (fun k => by norm_num [ampleClock])

/-! ### Claim C1 -/

/-- C1, counterexample: when the remaining time is already below the
abort threshold at entry, `get_move` does not return a default/random
legal move — the entry check on line 141 sits before the `try` block,
so the raised `Timeout` propagates to the caller. -/
theorem c1_counterexample :
    get_move crossBoard crossEval zeroClock 10 3 true "minimax" []
      [(0, 0), (1, 1)] 2 3 3 0 5 = some (.error ()) := by decide

/-- C1 (amended): `get_move` propagates a raised `Timeout` to its
caller exactly when the remaining time is below the abort threshold at
entry; whenever the entry check passes, no exception escapes —
`Timeout`s raised during search are caught by the `try/except` block
and the call returns a value. -/
theorem c1_amended (B : Board σ) (f : σ → Score) (clock : ℕ → ℚ) (th : ℚ)
    (search_depth : ℤ) (iterative : Bool) (method : String) (g : σ)
    (legal_moves : List Move) (move_count : ℕ) (height width : ℕ)
    (randIdx fuel : ℕ) (h : ¬ clock 0 < th) :
    get_move B f clock th search_depth iterative method g legal_moves
      move_count height width randIdx fuel ≠ some (.error ()) := by
  unfold get_move
  rw [if_neg h]
  by_cases h1 : legal_moves = []
  · simp [h1]
  · rw [if_neg h1]
    by_cases h2 : move_count = 1
    · simp [h2]
    · rw [if_neg h2]
      exact idLoop_no_error B f clock th method iterative g fuel 1 _ 1 ()

/-- C1, witness. -/
theorem c1_witness :
    get_move crossBoard crossEval ampleClock 10 3 true "minimax" []
      [(0, 0), (1, 1)] 2 3 3 0 5 ≠ some (.error ()) :=
  c1_amended crossBoard crossEval ampleClock 10 3 true "minimax" []
    [(0, 0), (1, 1)] 2 3 3 0 5 (by norm_num [ampleClock])

/-! ### Claim C7 -/

/-- C7, counterexample: with an empty legal-move list but a clock
already below the threshold, `get_move` raises `Timeout` instead of
returning the sentinel, because the entry clock check precedes the
empty-list check. -/
theorem c7_counterexample :
    get_move crossBoard crossEval zeroClock 10 3 true "minimax" []
      [] 2 3 3 0 5 = some (.error ()) ∧
    (some (Except.error ()) : Option (Except Unit Move)) ≠ some (.ok (-1, -1)) := by
  constructor
  · decide
  · decide

/-- C7 (amended): whenever the entry clock check passes, a call of
`get_move` with an empty legal-move list returns the sentinel `(-1,-1)`
immediately. -/
theorem c7_amended (B : Board σ) (f : σ → Score) (clock : ℕ → ℚ) (th : ℚ)
    (search_depth : ℤ) (iterative : Bool) (method : String) (g : σ)
    (move_count : ℕ) (height width : ℕ) (randIdx fuel : ℕ)
    (h : ¬ clock 0 < th) :
    get_move B f clock th search_depth iterative method g []
      move_count height width randIdx fuel = some (.ok (-1, -1)) := by
  unfold get_move
  rw [if_neg h]
  simp

/-- C7, witness. -/
theorem c7_witness :
    get_move crossBoard crossEval ampleClock 10 3 true "minimax" []
      [] 2 3 3 0 5 = some (.ok (-1, -1)) :=
  c7_amended crossBoard crossEval ampleClock 10 3 true "minimax" []
    2 3 3 0 5 (by norm_num [ampleClock])

/-! ### Claim C2 -/

/-- C2, counterexample: on a 3×3 empty board with move count 0 the
opening-book test `game.move_count == 1` is false, so `get_move` runs
the search instead of returning the center: with the constant-zero
evaluation the returned move is `(2,2)` (the lexicographically greatest
tying move), not `(1,1)`. -/
theorem c2_counterexample :
    get_move board33 constZeroEval ampleClock 10 3 false "minimax" []
      (board33.legalMoves []) 0 3 3 0 1 = some (.ok (2, 2)) ∧
    ((2, 2) : Move) ≠ (1, 1) := by
  constructor
  · decide
  · decide

/-- C2 (amended): the opening book fires exactly on `move_count = 1`
(not 0): whenever the entry clock check passes and the legal-move list
is nonempty, a state with move count 1 makes `get_move` return
`(floor(height/2), floor(width/2))` directly, bypassing search and
independently of the evaluation function. -/
theorem c2_amended (B : Board σ) (f : σ → Score) (clock : ℕ → ℚ) (th : ℚ)
    (search_depth : ℤ) (iterative : Bool) (method : String) (g : σ)
    (legal_moves : List Move) (height width : ℕ) (randIdx fuel : ℕ)
    (h : ¬ clock 0 < th) (h1 : legal_moves ≠ []) :
    get_move B f clock th search_depth iterative method g legal_moves
      1 height width randIdx fuel = some (.ok ((height : ℤ) / 2, (width : ℤ) / 2)) := by
  unfold get_move
  rw [if_neg h, if_neg h1]
  simp

/-- C2, witness: a 5×7 board at move count 1 yields the center row
`5 // 2 = 2` and center column `7 // 2 = 3`. -/
theorem c2_witness :
    get_move crossBoard crossEval ampleClock 10 3 true "minimax" []
      [(0, 0), (1, 1)] 1 5 7 0 5 = some (.ok (2, 3)) :=
  c2_amended crossBoard crossEval ampleClock 10 3 true "minimax" []
    [(0, 0), (1, 1)] 5 7 0 5 (by norm_num [ampleClock]) (by simp)

/-! ### Claim C3 -/

/-- C3, counterexample: iterative deepening with a clock that expires
while the depth-3 search is in flight (depth 1 returned score 5 with
move `(0,0)`, depth 2 completed with score 3 and move `(1,1)`): the
returned move is `(0,0)`, the accumulator's best-score move, not the
move `(1,1)` chosen by the completed depth-2 search, because the
accumulator replaces its value only on strict score improvement and
5 > 3. -/
theorem c3_counterexample :
    get_move crossBoard crossEval (cutClock 22) 10 3 true "minimax" []
      [(0, 0), (1, 1)] 2 3 3 0 5 = some (.ok (0, 0)) ∧
    search_method crossBoard crossEval (cutClock 22) 10 "minimax" [] 2 9
      = .ok ((finScore 3, (1, 1)), 19) ∧
    search_method crossBoard crossEval (cutClock 22) 10 "minimax" [] 3 20
      = .error () ∧
    ((0, 0) : Move) ≠ (1, 1) := by
  refine ⟨?_, ?_, ?_, ?_⟩ <;> decide

/-- C3 (amended): when the budget expires while the depth-`d` search is
in flight (either at the loop's clock check or inside the search call),
the partially computed depth-`d` result is discarded and `get_move`
returns the move held in the accumulator — the best-scoring move over
the previously completed depths, which need not be the depth-`d−1`
move. -/
theorem c3_amended (B : Board σ) (f : σ → Score) (clock : ℕ → ℚ) (th : ℚ)
    (method : String) (iterative : Bool) (g : σ) (fuel depth : ℕ)
    (best : Score × Move) (n : ℕ)
    (h : clock n < th ∨ search_method B f clock th method g depth (n + 1) = .error ()) :
    idLoop B f clock th method iterative g (fuel + 1) depth best n
      = some (.ok best.2) := by
  simp only [idLoop]
  by_cases hc : clock n < th
  · rw [if_pos hc]
  · rw [if_neg hc]
    rcases h with h | h
    · exact absurd h hc
    · rw [h]

/-- C3, witness. -/
theorem c3_witness :
    idLoop crossBoard crossEval zeroClock 10 "minimax" true [] 5 3
      (finScore 5, (0, 0)) 0 = some (.ok (0, 0)) :=
  c3_amended crossBoard crossEval zeroClock 10 "minimax" true [] 4 3
    (finScore 5, (0, 0)) 0 (Or.inl (by norm_num [zeroClock]))

/-! ### Claim C5 -/

/-- C5, counterexample: two `get_move` calls on an identical state,
depth budget and evaluation function, with no time pressure, that
return different moves.  When every line loses (`lostEval` is constant
`-inf`), the completed depth-1 search scores `-inf`, which does not
strictly improve on the seeded `best_score = -inf`, so the returned
move is the `random.randint`-seeded one — here realized by two
different RNG draws. -/
theorem c5_counterexample :
    get_move crossBoard lostEval ampleClock 10 3 false "minimax" []
      [(0, 0), (1, 1)] 2 3 3 0 1 = some (.ok (0, 0)) ∧
    get_move crossBoard lostEval ampleClock 10 3 false "minimax" []
      [(0, 0), (1, 1)] 2 3 3 1 1 = some (.ok (1, 1)) ∧
    ((0, 0) : Move) ≠ (1, 1) := by
  refine ⟨?_, ?_, ?_⟩ <;> decide

/-- C5 (amended): with no time pressure, a nonempty move list, no
opening-book hit, and a depth-1 search whose root score strictly
exceeds `-inf`, the result of `get_move` does not depend on the
internal RNG draw — so two invocations on identical inputs agree.  When
the depth-1 score is `-inf` the returned move is the RNG-seeded
fallback and the two invocations may differ (see the counterexample). -/
theorem c5_amended (B : Board σ) (f : σ → Score) (clock : ℕ → ℚ) (th : ℚ)
    (search_depth : ℤ) (iterative : Bool) (method : String) (g : σ)
    (legal_moves : List Move) (move_count : ℕ) (height width : ℕ)
    (fuel r1 r2 : ℕ) (s : Score) (m : Move) (n' : ℕ)
    (h0 : ∀ k, ¬ clock k < th) (h1 : legal_moves ≠ []) (h2 : move_count ≠ 1)
    (h3 : search_method B f clock th method g 1 2 = .ok ((s, m), n'))
    (h4 : (⊥ : Score) < s) :
    get_move B f clock th search_depth iterative method g legal_moves
      move_count height width r1 fuel =
    get_move B f clock th search_depth iterative method g legal_moves
      move_count height width r2 fuel := by
  unfold get_move
  rw [if_neg (h0 0), if_neg (h0 0), if_neg h1, if_neg h1, if_neg h2, if_neg h2]
  cases fuel with
  | zero => rfl
  | succ fu =>
    simp only [idLoop]
    rw [if_neg (h0 1), if_neg (h0 1), h3]
    dsimp only
    rw [if_pos h4, if_pos h4]

/-- C5, witness. -/
theorem c5_witness :
    get_move crossBoard crossEval ampleClock 10 3 false "minimax" []
      [(0, 0), (1, 1)] 2 3 3 0 1 =
    get_move crossBoard crossEval ampleClock 10 3 false "minimax" []
      [(0, 0), (1, 1)] 2 3 3 1 1 :=
  c5_amended crossBoard crossEval ampleClock 10 3 false "minimax" []
    [(0, 0), (1, 1)] 2 3 3 1 0 1 (finScore 5) (0, 0) 8
    (fun k => by norm_num [ampleClock]) (by simp) (by norm_num)
    (by decide) (by decide)

/-! ### Claim C9 -/

/-- C9: the code contradicts its own documentation.  `search_depth` is
documented (class docstring, lines 72-76) as the number of layers to
explore in fixed-depth search, but the live code never reads
`self.search_depth`: with `iterative = False` the loop always searches
depth 1 and returns.  Here, with `search_depth = 2`, `get_move` returns
the depth-1 move `(0,0)` although the depth-2 search (what the
configuration promises) selects `(1,1)`; the result is also unchanged
under any other `search_depth`. -/
theorem c9_bug :
    get_move crossBoard crossEval ampleClock 10 2 false "minimax" []
      [(0, 0), (1, 1)] 2 3 3 0 1 = some (.ok (0, 0)) ∧
    minimax crossBoard crossEval ampleClock 10 [] 2 true 0
      = .ok ((finScore 3, (1, 1)), 10) ∧
    ((0, 0) : Move) ≠ (1, 1) ∧
    get_move crossBoard crossEval ampleClock 10 5 false "minimax" []
      [(0, 0), (1, 1)] 2 3 3 0 1 =
    get_move crossBoard crossEval ampleClock 10 2 false "minimax" []
      [(0, 0), (1, 1)] 2 3 3 0 1 := by
  refine ⟨?_, ?_, ?_, ?_⟩ <;> decide

/-! ### Claim C10 -/

/-- C10: `custom_score` is not total.  On a non-terminal state whose
perspective player has no location yet, the positional term's
Manhattan-distance computation fails (`location[0]` on `None` raises a
`TypeError`), so `custom_score` produces no score. -/
theorem c10_nontotal :
    noLocState.isLoser = false ∧ noLocState.isWinner = false ∧
    noLocState.location = none ∧ custom_score noLocState = none := by
  refine ⟨rfl, rfl, rfl, ?_⟩
  have h7 : ((3 * 3 : ℕ) : ℚ) - ((2 : ℕ) : ℚ) ≠ 0 := by norm_num
  simp only [custom_score, noLocState]
  rw [if_neg h7]
  rfl

/-! ### Claim C6 -/

/-- C6, counterexample: a state in which the perspective player has
neither won nor lost but `custom_score` still returns `float("inf")` —
the positional term contributes an explicit infinite bonus when the
player is already at the center. -/
theorem fin_add_fin_add_top (a b : ℚ) :
    finScore a + finScore b + topScore = topScore := rfl

theorem c6_counterexample :
    centerState.isWinner = false ∧ centerState.isLoser = false ∧
    custom_score centerState = some topScore := by
  refine ⟨rfl, rfl, ?_⟩
  have h7 : ((3 * 3 : ℕ) : ℚ) - ((2 : ℕ) : ℚ) ≠ 0 := by norm_num
  simp only [custom_score, centerState]
  rw [if_neg h7]
  simp only [positional_heuristic]
  norm_num
  rw [fin_add_fin_add_top]

/-- C6 (amended): `custom_score` returns `float("-inf")` exactly when
the perspective player has lost, `float("inf")` when the player has won
— and also, through the positional term, on every non-terminal state
whose player sits exactly on the center cell — and a finite score on
every other state on which it returns at all (location present and a
nonzero remaining-move count). -/
theorem c6_amended (g : EvalState) :
    (g.isLoser = true → custom_score g = some ⊥) ∧
    (g.isLoser = false → g.isWinner = true → custom_score g = some topScore) ∧
    (g.isLoser = false → g.isWinner = false →
      ((g.width * g.height : ℕ) : ℚ) - ((g.moveCount : ℕ) : ℚ) ≠ 0 →
      ∀ loc : ℤ × ℤ, g.location = some loc →
        ((|loc.1 - (g.width : ℤ) / 2| + |loc.2 - (g.height : ℤ) / 2| = 0 →
            custom_score g = some topScore) ∧
         (|loc.1 - (g.width : ℤ) / 2| + |loc.2 - (g.height : ℤ) / 2| ≠ 0 →
            ∃ q : ℚ, custom_score g = some (finScore q)))) := by
  refine ⟨?_, ?_, ?_⟩
  · intro h
    simp [custom_score, h]
  · intro h1 h2
    simp [custom_score, h1, h2]
  · intro h1 h2 h3 loc hloc
    constructor
    · intro hd
      simp only [custom_score, h1, h2, Bool.false_eq_true, if_false]
      rw [if_neg h3, hloc]
      simp only [positional_heuristic]
      rw [if_neg (by simp [hd]), fin_add_fin_add_top]
    · intro hd
      refine ⟨lecture_heuristic_improved (g.ownMoves : ℚ) (g.oppMoves : ℚ)
          (((g.width * g.height : ℕ) : ℚ) - ((g.moveCount : ℕ) : ℚ))
        + survival_heuristic (g.ownMoves : ℚ)
          (((g.width * g.height : ℕ) : ℚ) - ((g.moveCount : ℕ) : ℚ))
        + (((g.width * g.height : ℕ) : ℚ) - ((g.moveCount : ℕ) : ℚ))
          / (((|loc.1 - (g.width : ℤ) / 2| + |loc.2 - (g.height : ℤ) / 2| : ℤ) : ℚ) * 5), ?_⟩
      simp only [custom_score, h1, h2, Bool.false_eq_true, if_false]
      rw [if_neg h3, hloc]
      simp only [positional_heuristic]
      rw [if_pos hd]
      rfl

/-- C6, witness. -/
theorem c6_witness : custom_score lostState = some ⊥ :=
  (c6_amended lostState).1 rfl

/-! ### Claim C8 -/

/-- C8: the running-best update in the maximizing loop replaces the
incumbent `(v, bm)` by the later-enumerated `(c, m)` exactly when
`c > v`, or `c = v` and `m` compares lexicographically greater than
`bm`; the minimizing loop applies the mirrored strict-less comparison
and the mirrored tie-break.  The last two conjuncts record that the
unpruned loops of `max_value`/`min_value` fold exactly this update over
the enumerated moves. -/
theorem c8_tiebreak :
    (∀ (v c : Score) (bm m : Move),
      pyMax (v, bm) (c, m) =
        if v < c ∨ (v = c ∧ moveLt bm m) then (c, m) else (v, bm)) ∧
    (∀ (v c : Score) (bm m : Move),
      pyMin (v, bm) (c, m) =
        if c < v ∨ (v = c ∧ moveLt m bm) then (c, m) else (v, bm)) ∧
    (∀ (childVal : Move → Score) (m : Move) (ms : List Move) (acc : Score × Move),
      maxvGo childVal (m :: ms) acc = maxvGo childVal ms (pyMax acc (childVal m, m))) ∧
    (∀ (childVal : Move → Score) (m : Move) (ms : List Move) (acc : Score × Move),
      minvGo childVal (m :: ms) acc = minvGo childVal ms (pyMin acc (childVal m, m))) := by
  refine ⟨?_, ?_, fun _ _ _ _ => rfl, fun _ _ _ _ => rfl⟩
  · intro v c bm m
    unfold pyMax
    exact if_congr Iff.rfl rfl rfl
  · intro v c bm m
    unfold pyMin
    exact if_congr (or_congr Iff.rfl (and_congr eq_comm Iff.rfl)) rfl rfl

end GameAgent
